import Mathlib

/-!
Shallow embedding of the course-recommendation core of the repository
(`src/recommender.py`): pair aggregation (`analyze_joint_purchases`),
recommendation-index construction (`CourseRecommender._build_recommendation_index`),
per-course resolution (`CourseRecommender.get_recommendations` plus the backfill
and sentinel padding performed per course inside
`CourseRecommender.get_all_recommendations`).

Machine reals of the Python code are modelled as exact rationals, Python lists as
`List`, the insertion-ordered dict/Counter as ordered association lists, and the
single `np.random.choice` draw as an explicit stream `rs : Nat -> Nat` whose value
selects an index into the current candidate pool.
-/

namespace SchoolAudit

/-- Purchase log: the (user_id, course_id) projection of the records consumed by
`analyze_joint_purchases`. -/
abbrev PurchaseLog := List (ℕ × ℕ)

/-- All two-element selections of a list, in order, exactly as
`itertools.combinations(l, 2)` enumerates them. -/
def combos : List ℕ → List (ℕ × ℕ)
  | [] => []
  | x :: xs => (xs.map fun y => (x, y)) ++ combos xs

/-- Course list of one user: course ids of the records with that user id, in
record order (pandas groupby keeps the within-group order). -/
def coursesOf (log : PurchaseLog) (u : ℕ) : List ℕ :=
  (log.filter fun r => r.1 == u).map Prod.snd

/-- Fueled duplicate removal; one unit of fuel is spent per element, so fuel
equal to the list length always suffices. -/
def firstDedupAux {α : Type} [DecidableEq α] : ℕ → List α → List α
  | 0, _ => []
  | _, [] => []
  | fuel + 1, x :: xs => x :: firstDedupAux fuel (xs.filter fun y => decide (y ≠ x))

/-- Duplicate removal keeping the first occurrence, matching the key order of a
Python dict or Counter built by repeated insertion. -/
def firstDedup {α : Type} [DecidableEq α] (l : List α) : List α :=
  firstDedupAux l.length l

/-- Distinct user ids in ascending order, matching pandas groupby over user_id
(group keys are sorted). -/
def usersOf (log : PurchaseLog) : List ℕ :=
  List.insertionSort (· ≤ ·) (firstDedup (log.map Prod.fst))

/-- Pairs contributed by one user: combinations of the sorted course list, taken
only when the user has at least two records (`if len(courses) >= 2`). -/
def userPairs (cs : List ℕ) : List (ℕ × ℕ) :=
  if 2 ≤ cs.length then combos (List.insertionSort (· ≤ ·) cs) else []

/-- The concatenated pair list `all_pairs` of `analyze_joint_purchases`. -/
def allPairs (log : PurchaseLog) : List (ℕ × ℕ) :=
  (usersOf log).flatMap fun u => userPairs (coursesOf log u)

/-- Multiplicity of a pair in the Counter `pair_counts`. -/
def pairCount (log : PurchaseLog) (p : ℕ × ℕ) : ℕ :=
  (allPairs log).count p

/-- Items of the Counter `pair_counts` in first-encounter order, each key with
its multiplicity. -/
def counterItems (log : PurchaseLog) : List ((ℕ × ℕ) × ℕ) :=
  (firstDedup (allPairs log)).map fun p => (p, pairCount log p)

/-- Quality table: rows (course_id, quality_score) of `quality_metrics`, indexed
by course_id. -/
abbrev Quality := List (ℕ × ℚ)

/-- Lookup in the course_id-indexed quality table: value of the first row whose
key matches. -/
def lookupQ : Quality → ℕ → Option ℚ
  | [], _ => none
  | e :: rest, c => if e.1 = c then some e.2 else lookupQ rest c

/-- `CourseRecommender._get_course_score`: quality_score / 100 when the course is
present, 0.5 otherwise. -/
def get_course_score (q : Quality) (c : ℕ) : ℚ :=
  match lookupQ q c with
  | some s => s / 100
  | none => 1 / 2

/-- The threshold filter of `CourseRecommender.__init__`: keep the items whose
count is strictly greater than the threshold. -/
def filterPairs (pc : List ((ℕ × ℕ) × ℕ)) (t : ℕ) : List ((ℕ × ℕ) × ℕ) :=
  pc.filter fun e => decide (t < e.2)

/-- Combined edge weight of `_build_recommendation_index`:
count * ((score1 + score2) / 2). -/
def edgeWeight (q : Quality) (e : (ℕ × ℕ) × ℕ) : ℚ :=
  (e.2 : ℚ) * ((get_course_score q e.1.1 + get_course_score q e.1.2) / 2)

/-- Edge entries one item of `pair_counts` appends to the list of course `c`:
first the append guarded by `course1`, then the one guarded by `course2`. -/
def contrib (q : Quality) (c : ℕ) (e : (ℕ × ℕ) × ℕ) : List (ℕ × ℚ) :=
  (if e.1.1 = c then [(e.1.2, edgeWeight q e)] else []) ++
    (if e.1.2 = c then [(e.1.1, edgeWeight q e)] else [])

/-- Unsorted edge list of course `c`, in insertion order over the filtered
items. -/
def rawEdges (q : Quality) (pc : List ((ℕ × ℕ) × ℕ)) (t : ℕ) (c : ℕ) : List (ℕ × ℚ) :=
  (filterPairs pc t).flatMap (contrib q c)

/-- Ordering used by `index[course].sort(key=lambda x: x[1], reverse=True)`:
weight of the left entry at least the weight of the right entry. -/
def weightGE (a b : ℕ × ℚ) : Prop := b.2 ≤ a.2

instance : DecidableRel weightGE := fun a b => inferInstanceAs (Decidable (b.2 ≤ a.2))

instance : IsTotal (ℕ × ℚ) weightGE := ⟨fun a b => le_total b.2 a.2⟩

instance : IsTrans (ℕ × ℚ) weightGE := ⟨fun _ _ _ h1 h2 => le_trans h2 h1⟩

/-- Sorted edge list of course `c` in the built index; a stable sort (as Python's
`list.sort`) of the insertion-ordered edges, by weight descending. -/
def recommendation_index (q : Quality) (pc : List ((ℕ × ℕ) × ℕ)) (t : ℕ) (c : ℕ) :
    List (ℕ × ℚ) :=
  List.insertionSort weightGE (rawEdges q pc t c)

/-- The accumulation loop of `get_recommendations`: walk the sorted edge list,
accept candidates meeting the quality bar, stop once `n <= len(recs)`. -/
def primaryLoop (q : Quality) (n : ℤ) (minq : ℚ) : List (ℕ × ℚ) → List ℕ → List ℕ
  | [], recs => recs
  | (cand, _) :: rest, recs =>
    let recs' := if minq ≤ get_course_score q cand * 100 then recs ++ [cand] else recs
    if n ≤ (recs'.length : ℤ) then recs' else primaryLoop q n minq rest recs'

/-- `CourseRecommender.get_recommendations`: empty when the course has no index
entry, else the primary accumulation over its sorted edge list. -/
def get_recommendations (q : Quality) (pc : List ((ℕ × ℕ) × ℕ)) (t : ℕ) (c : ℕ)
    (n : ℤ) (minq : ℚ) : List ℕ :=
  if rawEdges q pc t c = [] then []
  else primaryLoop q n minq (recommendation_index q pc t c) []

/-- The `high_quality_courses` selection inside `get_all_recommendations`: ids of
the quality rows with score at least `minq` and id different from `c`, in table
order. -/
def high_quality_courses (q : Quality) (minq : ℚ) (c : ℕ) : List ℕ :=
  (q.filter fun e => decide (minq ≤ e.2 ∧ e.1 ≠ c)).map Prod.fst

/-- Fueled backfill loop; every iteration removes exactly one element of the
pool, so fuel equal to the pool length always suffices. -/
def backfillAux (rs : ℕ → ℕ) (n : ℤ) : ℕ → ℕ → List ℕ → List ℕ → List ℕ
  | 0, _, recs, _ => recs
  | fuel + 1, k, recs, avail =>
    if h : (recs.length : ℤ) < n ∧ avail ≠ [] then
      let pick := avail.get ⟨rs k % avail.length, Nat.mod_lt _ (List.length_pos.mpr h.2)⟩
      backfillAux rs n fuel (k + 1) (recs ++ [pick]) (avail.erase pick)
    else recs

/-- The backfill loop of `get_all_recommendations`: while fewer than `n`
recommendations and the pool is non-empty, draw one element of the pool (the
draw stream picks the index), append it and remove it from the pool. -/
def backfill (rs : ℕ → ℕ) (n : ℤ) (k : ℕ) (recs avail : List ℕ) : List ℕ :=
  backfillAux rs n avail.length k recs avail

/-- The per-course body of `get_all_recommendations` before sentinel padding:
primary recommendations, then, when short of `n`, backfill from the available
high-quality courses not already recommended. -/
def recommend_core (q : Quality) (pc : List ((ℕ × ℕ) × ℕ)) (t : ℕ) (rs : ℕ → ℕ)
    (c : ℕ) (n : ℤ) (minq : ℚ) : List ℕ :=
  let recs := get_recommendations q pc t c n minq
  if (recs.length : ℤ) < n then
    backfill rs n 0 recs ((high_quality_courses q minq c).filter fun x => decide (x ∉ recs))
  else recs

/-- The per-course result of `get_all_recommendations`: the core list, padded
with `None` sentinels up to `n` entries. -/
def recommend (q : Quality) (pc : List ((ℕ × ℕ) × ℕ)) (t : ℕ) (rs : ℕ → ℕ)
    (c : ℕ) (n : ℤ) (minq : ℚ) : List (Option ℕ) :=
  let recs := recommend_core q pc t rs c n minq
  recs.map some ++ List.replicate (n - (recs.length : ℤ)).toNat none

/-- Modelled from the spec: score of a course as claim C3 words it, the quality
score (defaulting to 50 when the course is absent from the mapping) divided
by 100. -/
def spec_score (q : Quality) (c : ℕ) : ℚ :=
  ((lookupQ q c).getD 50) / 100

/-- Modelled from the spec: the backfill candidate pool as claim C5 words it,
over a course universe: all courses whose quality (default 50 when absent from
the mapping) is at least `minq`, minus the source course, minus the already
accepted candidates. -/
def spec_backfill_pool (univ : List ℕ) (q : Quality) (minq : ℚ) (c : ℕ)
    (recs : List ℕ) : List ℕ :=
  univ.filter fun x => decide (minq ≤ (lookupQ q x).getD 50 ∧ x ≠ c ∧ x ∉ recs)

/-- Number of non-sentinel entries of a padded recommendation list. -/
def countNonSentinel (l : List (Option ℕ)) : ℕ :=
  l.countP fun o => o.isSome

/-! ### Helper lemmas -/

theorem mem_index_iff_mem_raw {q : Quality} {pc : List ((ℕ × ℕ) × ℕ)} {t c : ℕ}
    {e : ℕ × ℚ} : e ∈ recommendation_index q pc t c ↔ e ∈ rawEdges q pc t c :=
  List.mem_insertionSort weightGE

theorem filter_erase_of_not {α : Type} [BEq α] [LawfulBEq α] (p : α → Bool) (x : α)
    (hx : p x = false) : ∀ l : List α, (l.erase x).filter p = l.filter p := by
  intro l
  induction l with
  | nil => rfl
  | cons a l ih =>
    by_cases hax : a = x
    · subst hax
      rw [List.erase_cons_head, List.filter_cons_of_neg (by simp [hx])]
    · rw [List.erase_cons_tail (by simpa using hax), List.filter_cons, List.filter_cons, ih]

theorem get_course_score_eq_spec_score (q : Quality) (c : ℕ) :
    get_course_score q c = spec_score q c := by
  unfold get_course_score spec_score
  cases lookupQ q c with
  | none => norm_num
  | some s => rfl

theorem edgeWeight_eq_spec (q : Quality) (c1 c2 n : ℕ) :
    edgeWeight q ((c1, c2), n) = (n : ℚ) * (spec_score q c1 + spec_score q c2) / 2 := by
  unfold edgeWeight
  rw [get_course_score_eq_spec_score, get_course_score_eq_spec_score]
  ring

theorem mem_raw_of_mem_filtered {q : Quality} {pc : List ((ℕ × ℕ) × ℕ)} {t : ℕ}
    {c1 c2 n : ℕ} (hmem : ((c1, c2), n) ∈ pc) (ht : t < n) :
    (c2, edgeWeight q ((c1, c2), n)) ∈ rawEdges q pc t c1 ∧
    (c1, edgeWeight q ((c1, c2), n)) ∈ rawEdges q pc t c2 := by
  have hf : ((c1, c2), n) ∈ filterPairs pc t :=
    List.mem_filter.mpr ⟨hmem, by simpa using ht⟩
  constructor
  · exact List.mem_flatMap.mpr ⟨((c1, c2), n), hf, by simp [contrib]⟩
  · refine List.mem_flatMap.mpr ⟨((c1, c2), n), hf, ?_⟩
    refine List.mem_append.mpr (Or.inr ?_)
    simp [contrib]

/-! ### Claim theorems -/

/-- C2: for every pair of the input PairCount, a count at most the threshold
contributes no edges to the index (erasing the item leaves every course's edge
list unchanged), while a count strictly above the threshold (in particular
threshold + 1) contributes an edge in both directions. -/
theorem threshold_boundary (q : Quality) (pc : List ((ℕ × ℕ) × ℕ)) (t : ℕ)
    (c1 c2 cnt : ℕ) :
    (cnt ≤ t → ∀ c, recommendation_index q (pc.erase ((c1, c2), cnt)) t c =
      recommendation_index q pc t c) ∧
    (((c1, c2), cnt) ∈ pc → t < cnt →
      c2 ∈ (recommendation_index q pc t c1).map Prod.fst ∧
      c1 ∈ (recommendation_index q pc t c2).map Prod.fst) := by
  constructor
  · intro hle c
    unfold recommendation_index rawEdges filterPairs
    rw [filter_erase_of_not (fun e => decide (t < e.2)) ((c1, c2), cnt) (by simp; omega) pc]
  · intro hmem ht
    obtain ⟨h1, h2⟩ := mem_raw_of_mem_filtered (q := q) hmem ht
    exact ⟨List.mem_map.mpr ⟨_, mem_index_iff_mem_raw.mpr h1, rfl⟩,
      List.mem_map.mpr ⟨_, mem_index_iff_mem_raw.mpr h2, rfl⟩⟩

/-- Witness for C2 at concrete inputs: a pair with count 2 and threshold 9 is
dropped, a pair with count 10 and threshold 9 yields edges both ways. -/
theorem threshold_boundary_witness :
    ((2 : ℕ) ≤ 9 ∧ recommendation_index [] ([((1, 2), 2)].erase ((1, 2), 2)) 9 1 =
      recommendation_index [] [((1, 2), 2)] 9 1) ∧
    (((4, 5), 10) ∈ [((4, 5), 10)] ∧ (9 : ℕ) < 10 ∧
      5 ∈ (recommendation_index [] [((4, 5), 10)] 9 4).map Prod.fst ∧
      4 ∈ (recommendation_index [] [((4, 5), 10)] 9 5).map Prod.fst) := by
  refine ⟨⟨by norm_num, (threshold_boundary [] [((1, 2), 2)] 9 1 2 2).1 (by norm_num) 1⟩, ?_⟩
  obtain ⟨h1, h2⟩ := (threshold_boundary [] [((4, 5), 10)] 9 4 5 10).2 (by simp) (by norm_num)
  exact ⟨by simp, by norm_num, h1, h2⟩

/-- C3: every surviving pair inserts, in both directions, an edge whose weight is
the count times the average of the two scores, a score being the course's
quality divided by 100 when present and 50/100 when absent. -/
theorem edge_weight_formula (q : Quality) (pc : List ((ℕ × ℕ) × ℕ)) (t : ℕ)
    (c1 c2 n : ℕ) (hmem : ((c1, c2), n) ∈ pc) (ht : t < n) :
    (c2, (n : ℚ) * (spec_score q c1 + spec_score q c2) / 2) ∈
      recommendation_index q pc t c1 ∧
    (c1, (n : ℚ) * (spec_score q c1 + spec_score q c2) / 2) ∈
      recommendation_index q pc t c2 := by
  obtain ⟨h1, h2⟩ := mem_raw_of_mem_filtered (q := q) hmem ht
  rw [edgeWeight_eq_spec] at h1 h2
  exact ⟨mem_index_iff_mem_raw.mpr h1, mem_index_iff_mem_raw.mpr h2⟩

/-- Witness for C3 at a concrete input: course 7 has quality 80, course 9 is
absent from the table, the pair has count 3 and the threshold is 0. -/
theorem edge_weight_formula_witness :
    ((7, 9), 3) ∈ [((7, 9), 3)] ∧ (0 : ℕ) < 3 ∧
    (9, (3 : ℚ) * (spec_score [(7, 80)] 7 + spec_score [(7, 80)] 9) / 2) ∈
      recommendation_index [(7, 80)] [((7, 9), 3)] 0 7 ∧
    (7, (3 : ℚ) * (spec_score [(7, 80)] 7 + spec_score [(7, 80)] 9) / 2) ∈
      recommendation_index [(7, 80)] [((7, 9), 3)] 0 9 := by
  obtain ⟨h1, h2⟩ := edge_weight_formula [(7, 80)] [((7, 9), 3)] 0 7 9 3 (by simp) (by norm_num)
  exact ⟨by simp, by norm_num, h1, h2⟩

theorem filter_weight_orderedInsert (x : ℕ × ℚ) (w : ℚ) :
    ∀ l : List (ℕ × ℚ),
      (l.orderedInsert weightGE x).filter (fun e => decide (e.2 = w)) =
        if x.2 = w then x :: l.filter (fun e => decide (e.2 = w))
        else l.filter (fun e => decide (e.2 = w))
  | [] => by by_cases hx : x.2 = w <;> simp [List.orderedInsert, List.filter_cons, hx]
  | y :: l => by
    rw [List.orderedInsert]
    by_cases hxy : weightGE x y
    · rw [if_pos hxy]
      by_cases hx : x.2 = w <;> simp [List.filter_cons, hx]
    · rw [if_neg hxy]
      have hlt : x.2 < y.2 := lt_of_not_le hxy
      by_cases hx : x.2 = w
      · have hy : ¬y.2 = w := fun h => absurd (hx.trans h.symm) (ne_of_lt hlt)
        simp [List.filter_cons, hx, hy, filter_weight_orderedInsert x w l]
      · simp [List.filter_cons, hx, filter_weight_orderedInsert x w l]

theorem filter_weight_insertionSort (w : ℚ) :
    ∀ l : List (ℕ × ℚ),
      (List.insertionSort weightGE l).filter (fun e => decide (e.2 = w)) =
        l.filter (fun e => decide (e.2 = w))
  | [] => rfl
  | x :: l => by
    rw [List.insertionSort, filter_weight_orderedInsert, List.filter_cons]
    by_cases hx : x.2 = w <;> simp [hx, filter_weight_insertionSort w l]

/-- C4: every course's edge list in the built index is sorted by weight
descending, and the sort is stable: for every weight, the sublist of edges
carrying exactly that weight is the same, in the same order, as in the
insertion-ordered raw edge list. -/
theorem index_sorted_stable (q : Quality) (pc : List ((ℕ × ℕ) × ℕ)) (t c : ℕ) :
    (recommendation_index q pc t c).Pairwise (fun a b => b.2 ≤ a.2) ∧
    ∀ w : ℚ, (recommendation_index q pc t c).filter (fun e => decide (e.2 = w)) =
      (rawEdges q pc t c).filter (fun e => decide (e.2 = w)) :=
  ⟨List.sorted_insertionSort weightGE _, fun w => filter_weight_insertionSort w _⟩

theorem count_ite_single (P : Prop) [Decidable P] (u p : ℕ × ℚ) :
    List.count p (if P then [u] else []) = if P ∧ u = p then 1 else 0 := by
  by_cases hP : P
  · by_cases hu : u = p
    · simp [hP, hu]
    · have hz : List.count p [u] = 0 :=
        List.count_eq_zero.mpr (by simp; exact fun h => hu h.symm)
      simp [hP, hu, hz]
  · simp [hP]

theorem count_of_perm {α : Type} [BEq α] {l1 l2 : List α} (h : l1.Perm l2) (a : α) :
    l1.count a = l2.count a :=
  h.countP_eq _

theorem count_contrib (q : Quality) (c x : ℕ) (w : ℚ) (e : (ℕ × ℕ) × ℕ) :
    (contrib q c e).count (x, w) =
      (if e.1.1 = c ∧ (e.1.2, edgeWeight q e) = (x, w) then 1 else 0) +
        (if e.1.2 = c ∧ (e.1.1, edgeWeight q e) = (x, w) then 1 else 0) := by
  unfold contrib
  rw [List.count_append, count_ite_single, count_ite_single]

theorem count_contrib_symm (q : Quality) (e : (ℕ × ℕ) × ℕ) (c1 c2 : ℕ) (w : ℚ) :
    (contrib q c1 e).count (c2, w) = (contrib q c2 e).count (c1, w) := by
  obtain ⟨⟨a, b⟩, n⟩ := e
  rw [count_contrib, count_contrib]
  simp only [Prod.mk.injEq]
  rw [add_comm]
  congr 1
  · exact if_congr (by tauto) rfl rfl
  · exact if_congr (by tauto) rfl rfl

theorem count_rawEdges_symm (q : Quality) (pc : List ((ℕ × ℕ) × ℕ)) (t : ℕ)
    (c1 c2 : ℕ) (w : ℚ) :
    (rawEdges q pc t c1).count (c2, w) = (rawEdges q pc t c2).count (c1, w) := by
  unfold rawEdges
  generalize filterPairs pc t = l
  induction l with
  | nil => rfl
  | cons e l ih =>
    rw [List.flatMap_cons, List.flatMap_cons, List.count_append, List.count_append,
      ih, count_contrib_symm]

/-- C10: the built index is symmetric with multiplicity: the entry (c2, w)
occurs in c1's edge list as often as (c1, w) occurs in c2's edge list, and every
course occurring as a candidate has a non-empty edge list of its own. -/
theorem index_symmetric (q : Quality) (pc : List ((ℕ × ℕ) × ℕ)) (t : ℕ)
    (c1 c2 : ℕ) (w : ℚ) :
    (recommendation_index q pc t c1).count (c2, w) =
      (recommendation_index q pc t c2).count (c1, w) ∧
    ((c2, w) ∈ recommendation_index q pc t c1 → recommendation_index q pc t c2 ≠ []) := by
  have hcount : ∀ d1 d2 : ℕ, ∀ w' : ℚ,
      (recommendation_index q pc t d1).count (d2, w') =
        (rawEdges q pc t d1).count (d2, w') :=
    fun d1 d2 w' => count_of_perm (List.perm_insertionSort weightGE _) _
  constructor
  · rw [hcount, hcount, count_rawEdges_symm]
  · intro hmem hnil
    have h1 : 0 < (recommendation_index q pc t c1).count (c2, w) :=
      List.count_pos_iff.mpr hmem
    rw [hcount, count_rawEdges_symm, ← hcount, hnil] at h1
    simp at h1

/-- Witness for C10 at a concrete input: the single pair (1,2) with count 5 and
default quality gives weight 5/2 in both directions. -/
theorem index_symmetric_witness :
    (recommendation_index [] [((1, 2), 5)] 0 1).count (2, 5 / 2) =
      (recommendation_index [] [((1, 2), 5)] 0 2).count (1, 5 / 2) ∧
    recommendation_index [] [((1, 2), 5)] 0 2 ≠ [] := by
  refine ⟨(index_symmetric [] [((1, 2), 5)] 0 1 2 (5 / 2)).1,
    (index_symmetric [] [((1, 2), 5)] 0 1 2 (5 / 2)).2 ?_⟩
  norm_num [recommendation_index, rawEdges, filterPairs, contrib, edgeWeight,
    get_course_score, lookupQ, List.insertionSort, List.orderedInsert]

theorem mem_backfillAux (rs : ℕ → ℕ) (n : ℤ) :
    ∀ (fuel k : ℕ) (recs avail : List ℕ) (x : ℕ),
      x ∈ backfillAux rs n fuel k recs avail → x ∈ recs ∨ x ∈ avail := by
  intro fuel
  induction fuel with
  | zero => exact fun k recs avail x hx => Or.inl hx
  | succ fuel ih =>
    intro k recs avail x hx
    rw [backfillAux] at hx
    split at hx
    · rename_i h
      rcases ih _ _ _ _ hx with h1 | h2
      · rcases List.mem_append.mp h1 with h3 | h4
        · exact Or.inl h3
        · have hx4 := List.mem_singleton.mp h4
          exact Or.inr (by rw [hx4]; exact List.get_mem _ _ _)
      · exact Or.inr (List.mem_of_mem_erase h2)
    · exact Or.inl hx

theorem mem_backfill {rs : ℕ → ℕ} {n : ℤ} {k : ℕ} {recs avail : List ℕ} {x : ℕ}
    (hx : x ∈ backfill rs n k recs avail) : x ∈ recs ∨ x ∈ avail :=
  mem_backfillAux rs n _ k recs avail x hx

theorem length_backfillAux (rs : ℕ → ℕ) (n : ℤ) :
    ∀ (fuel k : ℕ) (recs avail : List ℕ), avail.length ≤ fuel →
      (backfillAux rs n fuel k recs avail).length =
        if (recs.length : ℤ) < n then min n.toNat (recs.length + avail.length)
        else recs.length := by
  intro fuel
  induction fuel with
  | zero =>
    intro k recs avail hle
    have hav : avail = [] := List.length_eq_zero.mp (Nat.le_zero.mp hle)
    subst hav
    rw [backfillAux]
    split_ifs with h
    · simp only [List.length_nil]
      omega
    · rfl
  | succ fuel ih =>
    intro k recs avail hle
    rw [backfillAux]
    split
    · rename_i h
      have hpos : 0 < avail.length := List.length_pos.mpr h.2
      have hlen : ∀ x ∈ avail, (avail.erase x).length = avail.length - 1 :=
        fun x hx => List.length_erase_of_mem hx
      rw [ih _ _ _ (by rw [hlen _ (List.get_mem _ _ _)]; omega)]
      rw [List.length_append, hlen _ (List.get_mem _ _ _)]
      have h1 := h.1
      simp only [List.length_singleton]
      split_ifs <;> push_cast at * <;> omega
    · rename_i h
      rw [not_and_or] at h
      rcases h with h | h
      · rw [if_neg h]
      · have hav : avail = [] := not_not.mp h
        subst hav
        split_ifs with h2
        · simp only [List.length_nil]
          omega
        · rfl

theorem length_backfill (rs : ℕ → ℕ) (n : ℤ) (k : ℕ) (recs avail : List ℕ) :
    (backfill rs n k recs avail).length =
      if (recs.length : ℤ) < n then min n.toNat (recs.length + avail.length)
      else recs.length :=
  length_backfillAux rs n _ k recs avail le_rfl

/-- C6: a course without an index entry is handled without error: the primary
phase returns the empty list (so resolution proceeds straight to backfill), the
course's own quality defaults to 50 when it has no quality record, and the
course is excluded from its own pool, so it never occurs in its own resolved
list. -/
theorem unknown_course (q : Quality) (pc : List ((ℕ × ℕ) × ℕ)) (t : ℕ)
    (rs : ℕ → ℕ) (c : ℕ) (n : ℤ) (minq : ℚ) (h : rawEdges q pc t c = []) :
    get_recommendations q pc t c n minq = [] ∧
    (lookupQ q c = none → get_course_score q c * 100 = 50) ∧
    c ∉ recommend_core q pc t rs c n minq := by
  have hrec : get_recommendations q pc t c n minq = [] := by
    unfold get_recommendations
    rw [if_pos h]
  refine ⟨hrec, ?_, ?_⟩
  · intro hq
    unfold get_course_score
    rw [hq]
    norm_num
  · intro hc
    have hcore : recommend_core q pc t rs c n minq =
        if (([] : List ℕ).length : ℤ) < n then
          backfill rs n 0 []
            ((high_quality_courses q minq c).filter fun x => decide (x ∉ ([] : List ℕ)))
        else [] := by
      unfold recommend_core
      rw [hrec]
    rw [hcore] at hc
    split at hc
    · rcases mem_backfill hc with h1 | h2
      · simp at h1
      · have h3 := (List.mem_filter.mp h2).1
        unfold high_quality_courses at h3
        rcases List.mem_map.mp h3 with ⟨e, he, heq⟩
        have h5 := (List.mem_filter.mp he).2
        simp only [decide_eq_true_eq] at h5
        exact h5.2 heq
    · simp at hc

/-- Witness for C6 at a concrete input: course 1 has no pairs and no quality
record, course 2 is the only quality row. -/
theorem unknown_course_witness :
    rawEdges [(2, 80)] [] 0 1 = [] ∧ get_recommendations [(2, 80)] [] 0 1 2 0 = [] ∧
    (lookupQ [(2, 80)] 1 = none → get_course_score [(2, 80)] 1 * 100 = 50) ∧
    1 ∉ recommend_core [(2, 80)] [] 0 (fun _ => 0) 1 2 0 := by
  obtain ⟨h1, h2, h3⟩ := unknown_course [(2, 80)] [] 0 (fun _ => 0) 1 2 0 rfl
  exact ⟨rfl, h1, h2, h3⟩

/-- C8: the resolver performs no argument validation: at the invalid argument
n = -1 it silently returns a result list computed from the invalid value (here
one recommendation) instead of signaling an invalid-argument error. -/
theorem negative_n_silent :
    get_recommendations [] [((101, 102), 1)] 0 101 (-1) 0 = [102] := by
  norm_num [get_recommendations, recommendation_index, rawEdges, filterPairs,
    contrib, edgeWeight, get_course_score, List.insertionSort, List.orderedInsert,
    weightGE, primaryLoop, lookupQ, List.cons_ne_nil]

/-- C9: the concrete scenario of the spec: three users with one shared pair
each aggregate to the three singleton pair counts, and resolving course 101
with n = 1 and min_quality 50 returns exactly course 102, whatever the random
stream. -/
theorem scenario_roundtrip :
    counterItems [(1, 101), (1, 102), (2, 101), (2, 103), (3, 102), (3, 103)] =
      [((101, 102), 1), ((101, 103), 1), ((102, 103), 1)] ∧
    ∀ rs : ℕ → ℕ,
      recommend [(101, 80), (102, 60), (103, 40)]
        (counterItems [(1, 101), (1, 102), (2, 101), (2, 103), (3, 102), (3, 103)])
        0 rs 101 1 50 = [some 102] := by
  have hitems : counterItems [(1, 101), (1, 102), (2, 101), (2, 103), (3, 102), (3, 103)] =
      [((101, 102), 1), ((101, 103), 1), ((102, 103), 1)] := by decide
  refine ⟨hitems, fun rs => ?_⟩
  rw [hitems]
  norm_num [recommend, recommend_core, get_recommendations, recommendation_index,
    rawEdges, filterPairs, contrib, edgeWeight, get_course_score, List.insertionSort,
    List.orderedInsert, weightGE, primaryLoop, lookupQ, List.cons_ne_nil]

/-- C1 counterexample: a duplicated purchase record puts the degenerate key
(101, 101) in the Counter, and a duplicate purchase inflates the count of the
pair (101, 102) to 2 although only one distinct user purchased both. -/
theorem pair_aggregation_counterexample :
    (101, 101) ∈ allPairs [(1, 101), (1, 101)] ∧
    pairCount [(1, 101), (1, 101), (1, 102)] (101, 102) = 2 ∧
    ((usersOf [(1, 101), (1, 101), (1, 102)]).countP fun u =>
      decide (101 ∈ coursesOf [(1, 101), (1, 101), (1, 102)] u ∧
        102 ∈ coursesOf [(1, 101), (1, 101), (1, 102)] u)) = 1 := by
  decide

/-- C5 counterexample: with course 2 absent from the quality mapping and
min_quality 0 the pool claimed by the spec (default quality 50) is [2] and not
empty, yet the code's backfill pool is empty and the resolver appends
nothing. -/
theorem backfill_pool_counterexample :
    spec_backfill_pool [1, 2] [] 0 1 [] = [2] ∧
    recommend_core [] [] 0 (fun _ => 0) 1 1 0 = [] := by
  constructor
  · norm_num [spec_backfill_pool, lookupQ]
  · norm_num [recommend_core, get_recommendations, rawEdges, filterPairs,
      high_quality_courses, backfill, backfillAux, primaryLoop]

/-- C7 counterexample: the course universe [1, 2] has at least n + 1 = 2
members, min_quality is 0 and n = 1, yet with an empty quality mapping the
resolver returns zero non-sentinel entries. -/
theorem roundtrip_counterexample :
    (1 + 1 : ℕ) ≤ ([1, 2] : List ℕ).length ∧
    countNonSentinel (recommend [] [] 0 (fun _ => 0) 1 1 0) = 0 := by
  constructor
  · norm_num
  · norm_num [countNonSentinel, recommend, recommend_core, get_recommendations,
      rawEdges, filterPairs, high_quality_courses, backfill, backfillAux, primaryLoop]

theorem mem_high_quality_courses (q : Quality) (minq : ℚ) (c x : ℕ) :
    x ∈ high_quality_courses q minq c ↔ (∃ s, (x, s) ∈ q ∧ minq ≤ s) ∧ x ≠ c := by
  unfold high_quality_courses
  constructor
  · intro hx
    rcases List.mem_map.mp hx with ⟨e, he, heq⟩
    have h2 := List.mem_filter.mp he
    simp only [decide_eq_true_eq] at h2
    refine ⟨⟨e.2, ?_, h2.2.1⟩, heq ▸ h2.2.2⟩
    rw [← heq]
    simpa using h2.1
  · rintro ⟨⟨s, hs, hle⟩, hne⟩
    exact List.mem_map.mpr ⟨(x, s), List.mem_filter.mpr ⟨hs, by simp [hle, hne]⟩, rfl⟩

theorem nodup_high_quality_courses (q : Quality) (minq : ℚ) (c : ℕ)
    (hkeys : (q.map Prod.fst).Nodup) : (high_quality_courses q minq c).Nodup := by
  unfold high_quality_courses
  exact List.Nodup.sublist ((List.filter_sublist _).map Prod.fst) hkeys

/-- C5 amended: the backfill pool is exactly the set of courses present in the
quality mapping (no default for unmapped courses) with score at least
min_quality, minus the source course, minus the already accepted candidates;
the pool has no duplicates, every backfilled entry comes from the accepted list
or the pool, and backfill draws without replacement while the list is short of
n and the pool is non-empty. -/
theorem backfill_pool_amended (q : Quality) (rs : ℕ → ℕ) (minq : ℚ) (c : ℕ)
    (n : ℤ) (recs : List ℕ) (hkeys : (q.map Prod.fst).Nodup) :
    (∀ x, x ∈ (high_quality_courses q minq c).filter (fun x => decide (x ∉ recs)) ↔
      ((∃ s, (x, s) ∈ q ∧ minq ≤ s) ∧ x ≠ c ∧ x ∉ recs)) ∧
    ((high_quality_courses q minq c).filter (fun x => decide (x ∉ recs))).Nodup ∧
    (∀ x ∈ backfill rs n 0 recs
        ((high_quality_courses q minq c).filter fun x => decide (x ∉ recs)),
      x ∈ recs ∨
        x ∈ (high_quality_courses q minq c).filter fun x => decide (x ∉ recs)) ∧
    (backfill rs n 0 recs
        ((high_quality_courses q minq c).filter fun x => decide (x ∉ recs))).length =
      if (recs.length : ℤ) < n then
        min n.toNat (recs.length +
          ((high_quality_courses q minq c).filter fun x => decide (x ∉ recs)).length)
      else recs.length := by
  refine ⟨?_, ?_, ?_, ?_⟩
  · intro x
    rw [List.mem_filter, mem_high_quality_courses]
    simp only [decide_eq_true_eq]
    tauto
  · exact (nodup_high_quality_courses q minq c hkeys).filter _
  · exact fun x hx => mem_backfill hx
  · exact length_backfill rs n 0 recs _

/-- Witness for the amended C5 at a concrete input: quality rows for courses 2
and 3, source course 1, min_quality 50, nothing accepted yet, n = 1. -/
theorem backfill_pool_amended_witness :
    ([((2 : ℕ), (60 : ℚ)), (3, 40)].map Prod.fst).Nodup ∧
    (backfill (fun _ => 0) 1 0 []
        ((high_quality_courses [(2, 60), (3, 40)] 50 1).filter fun x =>
          decide (x ∉ ([] : List ℕ)))).length =
      if ((([] : List ℕ).length : ℤ)) < 1 then
        min (1 : ℤ).toNat (([] : List ℕ).length +
          ((high_quality_courses [(2, 60), (3, 40)] 50 1).filter fun x =>
            decide (x ∉ ([] : List ℕ))).length)
      else ([] : List ℕ).length :=
  ⟨by decide,
    (backfill_pool_amended [(2, 60), (3, 40)] (fun _ => 0) 50 1 1 [] (by decide)).2.2.2⟩

theorem recommend_core_eq (q : Quality) (pc : List ((ℕ × ℕ) × ℕ)) (t : ℕ)
    (rs : ℕ → ℕ) (c : ℕ) (n : ℤ) (minq : ℚ) :
    recommend_core q pc t rs c n minq =
      if ((get_recommendations q pc t c n minq).length : ℤ) < n then
        backfill rs n 0 (get_recommendations q pc t c n minq)
          ((high_quality_courses q minq c).filter fun x =>
            decide (x ∉ get_recommendations q pc t c n minq))
      else get_recommendations q pc t c n minq := rfl

theorem recommend_eq (q : Quality) (pc : List ((ℕ × ℕ) × ℕ)) (t : ℕ)
    (rs : ℕ → ℕ) (c : ℕ) (n : ℤ) (minq : ℚ) :
    recommend q pc t rs c n minq =
      (recommend_core q pc t rs c n minq).map some ++
        List.replicate (n - ((recommend_core q pc t rs c n minq).length : ℤ)).toNat
          none := rfl

theorem primaryLoop_length_le (q : Quality) (n : ℤ) (minq : ℚ) :
    ∀ (edges : List (ℕ × ℚ)) (recs : List ℕ), (recs.length : ℤ) < n →
      ((primaryLoop q n minq edges recs).length : ℤ) ≤ n := by
  intro edges
  induction edges with
  | nil => exact fun recs h => le_of_lt h
  | cons e rest ih =>
    intro recs h
    obtain ⟨cand, wt⟩ := e
    simp only [primaryLoop]
    by_cases hacc : minq ≤ get_course_score q cand * 100
    · simp only [if_pos hacc]
      by_cases hstop : n ≤ (((recs ++ [cand]).length : ℕ) : ℤ)
      · rw [if_pos hstop]
        simp only [List.length_append, List.length_singleton]
        push_cast
        omega
      · rw [if_neg hstop]
        exact ih _ (not_le.mp hstop)
    · simp only [if_neg hacc]
      by_cases hstop : n ≤ ((recs.length : ℕ) : ℤ)
      · rw [if_pos hstop]
        exact le_of_lt h
      · rw [if_neg hstop]
        exact ih _ h

theorem get_recommendations_length_le (q : Quality) (pc : List ((ℕ × ℕ) × ℕ))
    (t c : ℕ) (n : ℤ) (minq : ℚ) (hn : 1 ≤ n) :
    ((get_recommendations q pc t c n minq).length : ℤ) ≤ n := by
  unfold get_recommendations
  split_ifs
  · simp
    omega
  · exact primaryLoop_length_le q n minq _ [] (by simp; omega)

theorem nodup_subset_length {l1 l2 : List ℕ} (h1 : l1.Nodup)
    (hsub : ∀ x ∈ l1, x ∈ l2) : l1.length ≤ l2.length :=
  calc l1.length = l1.toFinset.card := (List.toFinset_card_of_nodup h1).symm
    _ ≤ l2.toFinset.card :=
      Finset.card_le_card fun x hx =>
        List.mem_toFinset.mpr (hsub x (List.mem_toFinset.mp hx))
    _ ≤ l2.length := List.toFinset_card_le l2

theorem length_filter_split (p : ℕ → Bool) :
    ∀ l : List ℕ, (l.filter p).length + (l.filter fun x => !p x).length = l.length
  | [] => rfl
  | x :: l => by
    rw [List.filter_cons, List.filter_cons]
    have hrec := length_filter_split p l
    cases hpx : p x <;> simp [hpx] <;> omega

theorem length_filter_not_mem (l recs : List ℕ) (hl : l.Nodup) :
    l.length ≤ (l.filter fun x => decide (x ∉ recs)).length + recs.length := by
  have h2 : (l.filter fun x => !decide (x ∉ recs)).length ≤ recs.length := by
    apply nodup_subset_length (hl.filter _)
    intro x hx
    have h3 := (List.mem_filter.mp hx).2
    simpa using h3
  have h1 := length_filter_split (fun x => decide (x ∉ recs)) l
  omega

theorem countNonSentinel_pad (l : List ℕ) (m : ℕ) :
    countNonSentinel (l.map some ++ List.replicate m none) = l.length := by
  unfold countNonSentinel
  rw [List.countP_append]
  have h1 : (l.map some).countP (fun o => o.isSome) = l.length := by
    rw [List.countP_map]
    simp [Function.comp]
  have h2 : (List.replicate m (none : Option ℕ)).countP (fun o => o.isSome) = 0 := by
    induction m with
    | zero => rfl
    | succ m ih =>
      rw [List.replicate_succ, List.countP_cons]
      simp [ih]
  omega

/-- C7 amended: with min_quality 0 and n at least 1, if the quality table has
pairwise-distinct course ids, only nonnegative scores, and at least n rows for
courses other than the source, the resolver returns exactly n entries, all of
them non-sentinel; with fewer such rows the backfill pool (drawn from the
quality table, not the course universe) can run dry. -/
theorem roundtrip_amended (q : Quality) (pc : List ((ℕ × ℕ) × ℕ)) (t : ℕ)
    (rs : ℕ → ℕ) (c : ℕ) (n : ℤ) (hn : 1 ≤ n)
    (hkeys : (q.map Prod.fst).Nodup)
    (hpos : ∀ e ∈ q, 0 ≤ e.2)
    (hcard : n ≤ ((q.filter fun e => decide (e.1 ≠ c)).length : ℤ)) :
    ((recommend_core q pc t rs c n 0).length : ℤ) = n ∧
    countNonSentinel (recommend q pc t rs c n 0) = n.toNat ∧
    ((recommend q pc t rs c n 0).length : ℤ) = n := by
  have hq_len : (high_quality_courses q 0 c).length =
      (q.filter fun e => decide (e.1 ≠ c)).length := by
    unfold high_quality_courses
    rw [List.length_map]
    congr 1
    apply List.filter_congr
    intro e he
    simp [hpos e he]
  have hcore : ((recommend_core q pc t rs c n 0).length : ℤ) = n := by
    rw [recommend_core_eq]
    by_cases hlt : ((get_recommendations q pc t c n 0).length : ℤ) < n
    · rw [if_pos hlt, length_backfill, if_pos hlt]
      have hnodup := nodup_high_quality_courses q 0 c hkeys
      have havail :=
        length_filter_not_mem (high_quality_courses q 0 c)
          (get_recommendations q pc t c n 0) hnodup
      rw [hq_len] at havail
      push_cast at hcard havail ⊢
      omega
    · rw [if_neg hlt]
      have hle := get_recommendations_length_le q pc t c n 0 hn
      omega
  refine ⟨hcore, ?_, ?_⟩
  · rw [recommend_eq, countNonSentinel_pad]
    omega
  · rw [recommend_eq, List.length_append, List.length_map, List.length_replicate]
    push_cast
    omega

/-- Witness for the amended C7 at a concrete input: one quality row (course 2,
score 50), source course 1, n = 1, empty pair counts. -/
theorem roundtrip_amended_witness :
    ((recommend_core [((2 : ℕ), (50 : ℚ))] [] 0 (fun _ => 0) 1 1 0).length : ℤ) = 1 ∧
    countNonSentinel (recommend [((2 : ℕ), (50 : ℚ))] [] 0 (fun _ => 0) 1 1 0) =
      (1 : ℤ).toNat ∧
    ((recommend [((2 : ℕ), (50 : ℚ))] [] 0 (fun _ => 0) 1 1 0).length : ℤ) = 1 :=
  roundtrip_amended [(2, 50)] [] 0 (fun _ => 0) 1 1 le_rfl (by decide)
    (by intro e he; simp at he; rw [he]; norm_num) (by norm_num)

theorem count_eq_of_nodup' {α : Type} [BEq α] [LawfulBEq α] [DecidableEq α] {a : α} :
    ∀ {l : List α}, l.Nodup → l.count a = if a ∈ l then 1 else 0 := by
  intro l
  induction l with
  | nil => intro; simp
  | cons b l ih =>
    intro hd
    rw [List.count_cons, ih (List.nodup_cons.mp hd).2]
    by_cases hba : b = a
    · subst hba
      have hb : b ∉ l := (List.nodup_cons.mp hd).1
      simp [hb]
    · simp [hba, Ne.symm hba]

theorem count_map_pair (x a b : ℕ) :
    ∀ xs : List ℕ, (xs.map fun y => (x, y)).count (a, b) =
      if a = x then xs.count b else 0
  | [] => by simp
  | y :: xs => by
    rw [List.map_cons, List.count_cons, List.count_cons, count_map_pair x a b xs]
    by_cases hax : a = x
    · subst hax
      by_cases hyb : y = b <;> simp [hyb, Prod.ext_iff]
    · rw [if_neg hax, if_neg hax]
      simp only [beq_iff_eq, Prod.ext_iff]
      rw [if_neg (fun h : x = a ∧ y = b => hax h.1.symm)]

theorem count_combos (a b : ℕ) :
    ∀ l : List ℕ, l.Sorted (· ≤ ·) → l.Nodup →
      (combos l).count (a, b) = if a ∈ l ∧ b ∈ l ∧ a < b then 1 else 0
  | [], _, _ => by simp [combos]
  | x :: xs, hs, hn => by
    rw [combos, List.count_append, count_map_pair,
      count_combos a b xs hs.of_cons (List.nodup_cons.mp hn).2]
    have hxmem : x ∉ xs := (List.nodup_cons.mp hn).1
    have hxle : ∀ y ∈ xs, x ≤ y := List.rel_of_sorted_cons hs
    by_cases hax : a = x
    · subst hax
      rw [if_pos rfl, if_neg (fun h : a ∈ xs ∧ b ∈ xs ∧ a < b => hxmem h.1),
        count_eq_of_nodup' (List.nodup_cons.mp hn).2]
      by_cases hb : b ∈ xs
      · have hlt : a < b :=
          lt_of_le_of_ne (hxle b hb) (fun h => hxmem (by rw [h]; exact hb))
        rw [if_pos hb,
          if_pos ⟨List.mem_cons_self a xs, List.mem_cons_of_mem a hb, hlt⟩]
      · have h9 : ¬(a ∈ a :: xs ∧ b ∈ a :: xs ∧ a < b) := by
          rintro ⟨_, h2, h3⟩
          rcases List.mem_cons.mp h2 with h4 | h4
          · rw [h4] at h3
            exact lt_irrefl a h3
          · exact hb h4
        rw [if_neg hb, if_neg h9]
    · rw [if_neg hax, zero_add]
      by_cases hb : b = x
      · subst hb
        have h9 : ¬(a ∈ b :: xs ∧ b ∈ b :: xs ∧ a < b) := by
          rintro ⟨h1, _, h3⟩
          rcases List.mem_cons.mp h1 with h4 | h4
          · exact hax h4
          · exact absurd h3 (not_lt.mpr (hxle a h4))
        rw [if_neg (fun h : a ∈ xs ∧ b ∈ xs ∧ a < b => hxmem h.2.1), if_neg h9]
      · refine if_congr ?_ rfl rfl
        constructor
        · rintro ⟨h1, h2, h3⟩
          exact ⟨List.mem_cons_of_mem _ h1, List.mem_cons_of_mem _ h2, h3⟩
        · rintro ⟨h1, h2, h3⟩
          refine ⟨?_, ?_, h3⟩
          · rcases List.mem_cons.mp h1 with h4 | h4
            · exact absurd h4 hax
            · exact h4
          · rcases List.mem_cons.mp h2 with h4 | h4
            · exact absurd h4 hb
            · exact h4

theorem mem_combos_lt {a b : ℕ} {l : List ℕ} (hs : l.Sorted (· ≤ ·))
    (hn : l.Nodup) (h : (a, b) ∈ combos l) : a ∈ l ∧ b ∈ l ∧ a < b := by
  have hpos : 0 < (combos l).count (a, b) := List.count_pos_iff.mpr h
  rw [count_combos a b l hs hn] at hpos
  by_contra hc
  rw [if_neg hc] at hpos
  exact lt_irrefl 0 hpos

theorem two_le_length_of_mem_ne {a b : ℕ} :
    ∀ {l : List ℕ}, a ∈ l → b ∈ l → a ≠ b → 2 ≤ l.length
  | [], ha, _, _ => absurd ha (List.not_mem_nil a)
  | [x], ha, hb, hab => by
    rw [List.mem_singleton] at ha hb
    exact absurd (ha.trans hb.symm) hab
  | _ :: _ :: _, _, _, _ => by
    rw [List.length_cons, List.length_cons]
    omega

theorem count_userPairs (a b : ℕ) (cs : List ℕ) (hn : cs.Nodup) :
    (userPairs cs).count (a, b) = if a ∈ cs ∧ b ∈ cs ∧ a < b then 1 else 0 := by
  unfold userPairs
  have hperm := List.perm_insertionSort (· ≤ ·) cs
  have hs := List.sorted_insertionSort (· ≤ ·) cs
  have hn' : (List.insertionSort (· ≤ ·) cs).Nodup := hperm.nodup_iff.mpr hn
  by_cases hlen : 2 ≤ cs.length
  · rw [if_pos hlen, count_combos a b _ hs hn']
    simp only [hperm.mem_iff]
  · rw [if_neg hlen, List.count_nil]
    symm
    rw [if_neg]
    rintro ⟨ha, hb, hab⟩
    exact hlen (two_le_length_of_mem_ne ha hb (ne_of_lt hab))

theorem count_flatMap_indicator (c1 c2 : ℕ) (f : ℕ → List ℕ) :
    ∀ us : List ℕ,
      (∀ u ∈ us, (userPairs (f u)).count (c1, c2) =
        if c1 ∈ f u ∧ c2 ∈ f u then 1 else 0) →
      (us.flatMap fun u => userPairs (f u)).count (c1, c2) =
        us.countP fun u => decide (c1 ∈ f u ∧ c2 ∈ f u)
  | [], _ => rfl
  | u :: us, h => by
    rw [List.flatMap_cons, List.count_append, List.countP_cons,
      count_flatMap_indicator c1 c2 f us fun v hv => h v (List.mem_cons_of_mem _ hv),
      h u (List.mem_cons_self _ _)]
    by_cases hc : c1 ∈ f u ∧ c2 ∈ f u <;> simp [hc] <;> omega

/-- C1 amended: for every purchase log in which no user holds two records of
the same course, every key of the aggregated Counter has two distinct course
ids, and its count is the number of distinct users who purchased both courses
of the pair. -/
theorem pair_aggregation_amended (log : PurchaseLog)
    (hdup : ∀ u ∈ usersOf log, (coursesOf log u).Nodup) (c1 c2 : ℕ)
    (hmem : (c1, c2) ∈ allPairs log) :
    c1 ≠ c2 ∧
    pairCount log (c1, c2) =
      (usersOf log).countP fun u =>
        decide (c1 ∈ coursesOf log u ∧ c2 ∈ coursesOf log u) := by
  rcases List.mem_flatMap.mp hmem with ⟨u, hu, hpu⟩
  have hlt : c1 < c2 := by
    unfold userPairs at hpu
    split_ifs at hpu with hlen
    · exact (mem_combos_lt (List.sorted_insertionSort _ _)
        ((List.perm_insertionSort _ _).nodup_iff.mpr (hdup u hu)) hpu).2.2
    · exact absurd hpu (List.not_mem_nil _)
  refine ⟨ne_of_lt hlt, ?_⟩
  unfold pairCount allPairs
  apply count_flatMap_indicator
  intro v hv
  rw [count_userPairs c1 c2 _ (hdup v hv)]
  refine if_congr ?_ rfl rfl
  constructor
  · rintro ⟨h1, h2, _⟩
    exact ⟨h1, h2⟩
  · rintro ⟨h1, h2⟩
    exact ⟨h1, h2, hlt⟩

/-- Witness for the amended C1 at a concrete input: a single user purchasing
the two distinct courses 101 and 102 once each. -/
theorem pair_aggregation_amended_witness :
    (101 : ℕ) ≠ 102 ∧
    pairCount [(1, 101), (1, 102)] (101, 102) =
      (usersOf [(1, 101), (1, 102)]).countP fun u =>
        decide (101 ∈ coursesOf [(1, 101), (1, 102)] u ∧
          102 ∈ coursesOf [(1, 101), (1, 102)] u) :=
  pair_aggregation_amended [(1, 101), (1, 102)] (by decide) 101 102 (by decide)

end SchoolAudit
